import Mathlib

/- Shallow embedding of the PortfolioOptimization repository (utils.py and
portfolio_optimizer.py) and a verification of its documented behaviour.

Conventions used throughout:
* numpy float arrays are embedded as lists of rationals; the real-valued
  quantities produced by np.sqrt live in the reals, every other computation
  is exact rational arithmetic.
* randomness (np.random.random) is modelled by passing the drawn matrices in
  as explicit arguments, one raw batch per rejection-sampling attempt.
* a Python function that can raise returns Except/Option; an exception that
  the source catches becomes none. -/

namespace PortfolioOpt

/- ------------------------------------------------------------------ -/
/- Weight sampler: generate_valid_weights, utils.py lines 89-109       -/
/- ------------------------------------------------------------------ -/

/-- Validity test applied by utils.py line 101 to one normalized row.
The conjunct 0 < r.sum models the numpy semantics for a zero-sum raw row
(all raw entries are non-negative): dividing by a zero row sum produces NaN
entries and NaN <= 0.2 is false, so such a row never passes the mask. -/
def validWeightRow (r : List ℚ) : Bool :=
  decide (0 < r.sum) && r.all (fun x => decide (x / r.sum ≤ 1/5))

/-- One rejection-sampling attempt of generate_valid_weights
(utils.py lines 99-102): normalize each raw row to sum one, keep the rows
whose entries are all at most 0.2. -/
def generate_valid_weights_attempt (raw : List (List ℚ)) : List (List ℚ) :=
  (raw.filter validWeightRow).map (fun r => r.map (fun x => x / r.sum))

/-- generate_valid_weights (utils.py lines 89-109).  The randomness is
modelled by the list of raw uniform draw batches, one batch per recursive
attempt; the result none means every supplied attempt failed the
len check of line 105, in which case the Python code recurses again with
unchanged arguments (it would consume further draws, or diverge). -/
def generate_valid_weights : List (List (List ℚ)) → ℕ → Option (List (List ℚ))
  | [], _ => none
  | raw :: rest, nSim =>
    let valid := generate_valid_weights_attempt raw
    if valid.length < nSim then generate_valid_weights rest nSim
    else some (valid.take nSim)

/-- Embedding of itertools.combinations: all k-subsets of the list, as
tuples in the input order, emitted lexicographically by position. -/
def combos {α : Type} : List α → ℕ → List (List α)
  | _, 0 => [[]]
  | [], _ + 1 => []
  | x :: xs, k + 1 => ((combos xs k).map (fun c => x :: c)) ++ combos xs (k + 1)

/-- get_stock_combinations (utils.py lines 111-121). -/
def get_stock_combinations (all_stocks : List String) (n_select : ℕ) :
    List (List String) :=
  combos all_stocks n_select

/-- numpy dot product of two vectors (truncating at the shorter one the
way zip does; the source always feeds equal lengths). -/
def dot (a b : List ℚ) : ℚ := (List.zipWith (fun x y => x * y) a b).sum

/-- numpy mean of a vector; the rational convention division by zero = 0
stands in for the nan numpy produces on an empty input. -/
def npMean (xs : List ℚ) : ℚ := xs.sum / (xs.length : ℚ)

/-- Width of a numpy 2-d array (number of columns, read off the first
row; numpy arrays are rectangular). -/
def numCols (R : List (List ℚ)) : ℕ :=
  match R with
  | [] => 0
  | row :: _ => row.length

/-- Transposition of a rectangular matrix given as a list of rows:
column j of R, for each j below the width.  On the rectangular arrays
numpy accepts this is exactly the .T transpose. -/
def npTranspose (R : List (List ℚ)) : List (List ℚ) :=
  (List.range (numCols R)).map (fun j => R.filterMap (fun row => row.get? j))

/-- Column means of the daily returns times 252 (utils.py lines 31, 55). -/
def mean_returns (R : List (List ℚ)) : List ℚ :=
  (npTranspose R).map (fun col => npMean col * 252)

/-- np.cov of the columns of R (rows of R are observations) with the numpy
default ddof = 1: entry (j, k) is the centered cross sum over T rows of R
divided by T - 1; for T <= 1 the rational convention division by zero = 0
stands in for the numpy nan/inf warning values. -/
def npCov (R : List (List ℚ)) : List (List ℚ) :=
  (npTranspose R).map (fun cj =>
    (npTranspose R).map (fun ck =>
      dot (cj.map (fun x => x - npMean cj)) (ck.map (fun x => x - npMean ck)) /
        ((R.length : ℚ) - 1)))

/-- calculate_portfolio_return (utils.py lines 44-56):
np.sum(mean_returns * weights). -/
def calculate_portfolio_return (R : List (List ℚ)) (w : List ℚ) : ℚ :=
  dot (mean_returns R) w

/-- Covariance matrix times 252 (utils.py line 69). -/
def cov252 (R : List (List ℚ)) : List (List ℚ) :=
  (npCov R).map (fun row => row.map (fun x => x * 252))

/-- calculate_portfolio_volatility (utils.py lines 58-73): square root of
the quadratic form weights (cov * 252) weights. -/
noncomputable def calculate_portfolio_volatility (R : List (List ℚ)) (w : List ℚ) : ℝ :=
  Real.sqrt ((dot w ((cov252 R).map (fun row => dot row w)) : ℚ) : ℝ)

/-- calculate_sharpe_ratio (utils.py lines 75-87). -/
noncomputable def calculate_sharpe_ratio (R : List (List ℚ)) (w : List ℚ) : ℝ :=
  (calculate_portfolio_return R w : ℝ) / calculate_portfolio_volatility R w

/-- Annualized volatility the batch kernel produces for a daily portfolio
variance v (utils.py line 37): sqrt(v) * sqrt(252). -/
noncomputable def annualVol (v : ℚ) : ℝ := Real.sqrt (v : ℝ) * Real.sqrt 252

/-- Sharpe ratio the batch kernel produces for annual return r and daily
portfolio variance v (utils.py line 40). -/
noncomputable def sharpeVal (r v : ℚ) : ℝ := (r : ℝ) / annualVol v

/-- Computable core of calculate_portfolio_metrics_vectorized: for each
weight row, the annualized portfolio return (line 32) and the daily
portfolio variance (lines 34-36). -/
def metrics_core (R W : List (List ℚ)) : List (ℚ × ℚ) :=
  W.map (fun w =>
    (dot w (mean_returns R), dot ((npCov R).map (fun row => dot row w)) w))

/-- calculate_portfolio_metrics_vectorized (utils.py lines 17-42): the
tuple (sharpe ratios, annual returns, annual volatilities). -/
noncomputable def calculate_portfolio_metrics_vectorized (R W : List (List ℚ)) :
    List ℝ × List ℚ × List ℝ :=
  ((metrics_core R W).map (fun p => sharpeVal p.1 p.2),
   (metrics_core R W).map (fun p => p.1),
   (metrics_core R W).map (fun p => annualVol p.2))

/-- Error taxonomy name the specification assigns to a too-short price
matrix.  The source never raises it; it appears here only so that the
embedding can state that no error is produced. -/
inductive DailyReturnsError
  | EmptyInputError
  deriving Repr, DecidableEq

/-- Core of prices.pct_change().dropna(): row t of the result is
row (t+1) of the input divided elementwise by row t, minus one.  For
strictly positive prices the only all-NaN row pct_change produces is the
first one, which dropna removes, giving exactly this zip with the tail. -/
def pct_change_dropna (prices : List (List ℚ)) : List (List ℚ) :=
  (prices.zip prices.tail).map
    (fun pc => (pc.2.zip pc.1).map (fun xy => xy.1 / xy.2 - 1))

/-- calculate_daily_returns (utils.py lines 6-15).  The Python function
contains no raise and always returns the dataframe, so the embedding is
always Except.ok. -/
def calculate_daily_returns (prices : List (List ℚ)) :
    Except DailyReturnsError (List (List ℚ)) :=
  .ok (pct_change_dropna prices)

/-- Integer sign of the embedded sharpe ratio r / (sqrt v * sqrt 252),
with the convention that a non-positive variance gives denominator 0 and
hence ratio 0. -/
def sharpeSign (r v : ℚ) : Int :=
  if v ≤ 0 then 0 else if r < 0 then -1 else if r = 0 then 0 else 1

/-- Decidable comparison of the embedded sharpe ratios of two
(annual return, daily variance) pairs; proved below to agree with the
strict order on the real values. -/
def sharpeLt (a b : ℚ × ℚ) : Bool :=
  if sharpeSign a.1 a.2 < sharpeSign b.1 b.2 then true
  else if sharpeSign b.1 b.2 < sharpeSign a.1 a.2 then false
  else if sharpeSign a.1 a.2 = 1 then decide (a.1 ^ 2 * b.2 < b.1 ^ 2 * a.2)
  else if sharpeSign a.1 a.2 = -1 then decide (b.1 ^ 2 * a.2 < a.1 ^ 2 * b.2)
  else false

/-- Scan step of np.argmax: the current best index/value is replaced only
on a strictly greater value, so the first maximum wins. -/
def argmaxGo {α : Type} (lt : α → α → Bool) : List α → ℕ → ℕ → α → ℕ
  | [], _, bi, _ => bi
  | x :: xs, i, bi, bv =>
    if lt bv x then argmaxGo lt xs (i + 1) i x
    else argmaxGo lt xs (i + 1) bi bv

/-- np.argmax over a list with the given strict comparison (utils.py line
151); none on the empty list models the ValueError numpy raises there. -/
def npArgmax {α : Type} (lt : α → α → Bool) : List α → Option ℕ
  | [] => none
  | x :: xs => some (argmaxGo lt xs 1 0 x)

/-- The result unit of the search (utils.py lines 156-162).  The source
record stores the floats sharpe_ratio, annual_return and annual_volatility;
the embedding stores the exact annual return and daily portfolio variance,
from which the two real-valued fields are the derived functions below. -/
structure PortfolioRecord where
  stocks : List String
  weights : List (String × ℚ)
  annual_return : ℚ
  var_daily : ℚ
  deriving Repr, DecidableEq

/-- Annualized volatility field of a record (utils.py line 161). -/
noncomputable def PortfolioRecord.annual_volatility (p : PortfolioRecord) : ℝ :=
  annualVol p.var_daily

/-- Sharpe ratio field of a record (utils.py line 159). -/
noncomputable def PortfolioRecord.sharpe (p : PortfolioRecord) : ℝ :=
  sharpeVal p.annual_return p.var_daily

/-- find_best_portfolio_from_batch (utils.py lines 139-162): compute the
batched metrics, take np.argmax of the sharpe ratios, and build the record
for that row.  none models the ValueError np.argmax raises on an empty
batch (caught by the caller); the final catch-all arm is dead code, since
the argmax index is always in range. -/
def find_best_portfolio_from_batch (R W : List (List ℚ))
    (combination : List String) : Option PortfolioRecord :=
  match npArgmax sharpeLt (metrics_core R W) with
  | none => none
  | some i =>
    match W.get? i, (metrics_core R W).get? i with
    | some w, some m =>
      some { stocks := combination
             weights := combination.zip w
             annual_return := m.1
             var_daily := m.2 }
    | _, _ => none

/-- numpy column slice returns_array[:, column_indices]; none models the
IndexError an out-of-range column index raises (caught by the caller). -/
def selectColumns (R : List (List ℚ)) (idx : List ℕ) :
    Option (List (List ℚ)) :=
  R.mapM (fun row => idx.mapM (fun j => row.get? j))

/-- process_stock_combination (portfolio_optimizer.py lines 12-30): slice
the returns to the combination columns, sample a weight batch, and return
the best portfolio of the batch.  The try/except turns every internal
failure into None instead of raising: here a bad column index, exhausted
modelled draws, or the empty-batch ValueError of np.argmax. -/
def process_stock_combination (draws : List (List (List ℚ)))
    (combination : List String) (returns_array : List (List ℚ))
    (column_indices : List ℕ) (n_simulations : ℕ) :
    Option PortfolioRecord :=
  match selectColumns returns_array column_indices with
  | none => none
  | some sel =>
    match generate_valid_weights draws n_simulations with
    | none => none
    | some wb => find_best_portfolio_from_batch sel wb combination

/-- Error raised when the flattened result list is empty (the spec names
it NoValidPortfolioError; the source raises a ValueError whose message
states that no valid portfolios were found). -/
inductive OptimizeError
  | NoValidPortfolioError
  deriving Repr, DecidableEq

/-- Python max(results, key=...) scan: the running best is replaced only
by a strictly greater key, so the first maximal element wins. -/
def pyMaxBy {α : Type} (lt : α → α → Bool) : α → List α → α
  | best, [] => best
  | best, x :: xs => pyMaxBy lt (if lt best x then x else best) xs

/-- Key comparison used by the reduction: the sharpe_ratio field. -/
def recSharpeLt (a b : PortfolioRecord) : Bool :=
  sharpeLt (a.annual_return, a.var_daily) (b.annual_return, b.var_daily)

/-- Reduction step shared by optimize_portfolio (lines 102-111) and
optimize_portfolio_sequential (lines 149-155): fail on an empty flattened
result list, otherwise select the record of maximum sharpe ratio. -/
def reduceResults (results : List PortfolioRecord) :
    Except OptimizeError PortfolioRecord :=
  match results with
  | [] => .error .NoValidPortfolioError
  | r :: rs => .ok (pyMaxBy recSharpeLt r rs)

/-- A concrete two-record result list used by the reduction witness. -/
def sampleRecords : List PortfolioRecord :=
  [{ stocks := ["A"], weights := [("A", 1)], annual_return := 1, var_daily := 1 },
   { stocks := ["B"], weights := [("B", 1)], annual_return := 2, var_daily := 1 }]

/-- Auto chunk size (portfolio_optimizer.py lines 81-88): aim for four
chunks per worker, at least 1, capped at 250. -/
def autoChunkSize (total nWorkers : ℕ) : ℕ :=
  min (max 1 (total / (nWorkers * 4))) 250

/-- Number of chunks (line 92). -/
def numChunks (total chunkSize : ℕ) : ℕ := max 1 (total / chunkSize)

/-- Piece sizes of np.array_split of l items into n pieces: l mod n
pieces of size l / n + 1 followed by the rest of size l / n. -/
def splitSizes (l n : ℕ) : List ℕ :=
  List.replicate (l % n) (l / n + 1) ++ List.replicate (n - l % n) (l / n)

/-- Cut a list into consecutive pieces of the given sizes. -/
def splitBySizes {α : Type} : List ℕ → List α → List (List α)
  | [], _ => []
  | s :: ss, xs => xs.take s :: splitBySizes ss (xs.drop s)

/-- np.array_split (line 93): n near-equal consecutive pieces. -/
def array_split {α : Type} (xs : List α) (n : ℕ) : List (List α) :=
  splitBySizes (splitSizes xs.length n) xs

/-- Price frame: named asset columns over rows of closing prices. -/
structure PriceFrame where
  cols : List String
  rows : List (List ℚ)

/-- Evaluate one combination the way both loop bodies do
(portfolio_optimizer.py lines 39-47 and 136-144): look each symbol up in
the column map (a missing symbol raises KeyError, caught, skipping the
combination) and run process_stock_combination.  A job pairs the
combination with the raw random draws its evaluation consumes, which is
how the embedding expresses that a run is driven by fixed randomness. -/
def runJob (returns_array : List (List ℚ)) (cols : List String) (nSim : ℕ)
    (job : List String × List (List (List ℚ))) : Option PortfolioRecord :=
  match job.1.mapM (fun s => cols.indexOf? s) with
  | none => none
  | some idx => process_stock_combination job.2 job.1 returns_array idx nSim

/-- process_combinations_chunk (lines 32-55): evaluate every combination
of the chunk in order, keeping the records that are not None. -/
def process_combinations_chunk (returns_array : List (List ℚ))
    (cols : List String) (nSim : ℕ)
    (chunk : List (List String × List (List (List ℚ)))) :
    List PortfolioRecord :=
  chunk.filterMap (runJob returns_array cols nSim)

/-- optimize_portfolio (portfolio_optimizer.py lines 57-115): compute the
returns, enumerate the combinations, split them into chunks (auto chunk
size when none is supplied), evaluate every chunk, flatten, and reduce.
The worker pool evaluates chunks independently, so its scatter/gather is
the chunk-wise map below; each combination is paired with its own random
draws before chunking. -/
def optimize_portfolio (prices : PriceFrame) (n_select nSim nWorkers : ℕ)
    (chunk_size : Option ℕ)
    (draws : List (List (List (List ℚ)))) :
    Except OptimizeError PortfolioRecord :=
  let returns_array := pct_change_dropna prices.rows
  let combosList := get_stock_combinations prices.cols n_select
  let jobs := combosList.zip draws
  let cs := match chunk_size with
    | some c => c
    | none => autoChunkSize combosList.length nWorkers
  let chunks := array_split jobs (numChunks combosList.length cs)
  reduceResults
    ((chunks.map (process_combinations_chunk returns_array prices.cols nSim)).flatten)

/-- optimize_portfolio_sequential (portfolio_optimizer.py lines 117-159):
the same computation in one control flow, no chunking. -/
def optimize_portfolio_sequential (prices : PriceFrame)
    (n_select nSim : ℕ) (draws : List (List (List (List ℚ)))) :
    Except OptimizeError PortfolioRecord :=
  let returns_array := pct_change_dropna prices.rows
  let combosList := get_stock_combinations prices.cols n_select
  let jobs := combosList.zip draws
  reduceResults (jobs.filterMap (runJob returns_array prices.cols nSim))

/- ------------------------------------------------------------------ -/
/- Lemmas and claim theorems                                           -/
/- ------------------------------------------------------------------ -/

lemma sum_map_div (r : List ℚ) (s : ℚ) :
    (r.map (fun x => x / s)).sum = r.sum / s := by
  induction r with
  | nil => simp
  | cons a t ih => simp [ih, add_div]

lemma mem_generate_valid_weights_attempt {raw : List (List ℚ)}
    {row : List ℚ} (h : row ∈ generate_valid_weights_attempt raw) :
    ∃ r ∈ raw, validWeightRow r = true ∧ row = r.map (fun x => x / r.sum) := by
  unfold generate_valid_weights_attempt at h
  rcases List.mem_map.mp h with ⟨r, hr, hrow⟩
  exact ⟨r, (List.mem_filter.mp hr).1, (List.mem_filter.mp hr).2, hrow.symm⟩

/-- C1.  Whenever generate_valid_weights returns (for non-negative raw
draws, as produced by np.random.random), the result has exactly
nSimulations rows, every entry is non-negative and at most 0.2, and each
row sums to exactly 1 (hence within 1e-9 of 1.0). -/
theorem generate_valid_weights_spec
    (draws : List (List (List ℚ))) (nSim : ℕ) (W : List (List ℚ))
    (hsim : 1 ≤ nSim)
    (hnn : ∀ raw ∈ draws, ∀ r ∈ raw, ∀ x ∈ r, 0 ≤ x)
    (hret : generate_valid_weights draws nSim = some W) :
    W.length = nSim ∧
      ∀ row ∈ W, (∀ x ∈ row, 0 ≤ x ∧ x ≤ 1/5) ∧
        row.sum = 1 ∧ |row.sum - 1| ≤ 1/1000000000 := by
  induction draws with
  | nil => simp [generate_valid_weights] at hret
  | cons raw rest ih =>
    rw [generate_valid_weights] at hret
    by_cases hlen : (generate_valid_weights_attempt raw).length < nSim
    · rw [if_pos hlen] at hret
      exact ih (fun b hb => hnn b (List.mem_cons_of_mem _ hb)) hret
    · rw [if_neg hlen] at hret
      have hW : W = (generate_valid_weights_attempt raw).take nSim :=
        (Option.some.injEq _ _ ▸ hret).symm
      push_neg at hlen
      constructor
      · rw [hW, List.length_take]
        exact Nat.min_eq_left hlen
      · intro row hrow
        have hrow' : row ∈ generate_valid_weights_attempt raw := by
          exact List.mem_of_mem_take (hW ▸ hrow)
        rcases mem_generate_valid_weights_attempt hrow' with ⟨r, hr, hvalid, hform⟩
        simp only [validWeightRow, Bool.and_eq_true, decide_eq_true_eq,
          List.all_eq_true] at hvalid
        obtain ⟨hpos', hall'⟩ := hvalid
        have hsum : row.sum = 1 := by
          rw [hform, sum_map_div]
          exact div_self (ne_of_gt hpos')
        refine ⟨?_, hsum, by rw [hsum]; norm_num⟩
        intro x hx
        rw [hform] at hx
        rcases List.mem_map.mp hx with ⟨y, hy, hxy⟩
        subst hxy
        exact ⟨div_nonneg (hnn raw (List.mem_cons_self _ _) r hr y hy) (le_of_lt hpos'),
          hall' y hy⟩

/-- Witness for C1 at a concrete input: one attempt with a single raw row
of five equal entries, requesting one simulation. -/
theorem generate_valid_weights_spec_witness :
    (1 ≤ 1 ∧ ∀ raw ∈ [[[(1:ℚ),1,1,1,1]]], ∀ r ∈ raw, ∀ x ∈ r, 0 ≤ x) ∧
      ([[(1:ℚ)/5, 1/5, 1/5, 1/5, 1/5]].length = 1 ∧
        ∀ row ∈ [[(1:ℚ)/5, 1/5, 1/5, 1/5, 1/5]],
          (∀ x ∈ row, 0 ≤ x ∧ x ≤ 1/5) ∧
            row.sum = 1 ∧ |row.sum - 1| ≤ 1/1000000000) := by
  refine ⟨⟨le_refl 1, by decide⟩, ?_⟩
  exact generate_valid_weights_spec [[[(1:ℚ),1,1,1,1]]] 1
    [[(1:ℚ)/5, 1/5, 1/5, 1/5, 1/5]] (le_refl 1) (by decide)
    (by norm_num [generate_valid_weights, generate_valid_weights_attempt,
      validWeightRow, List.filter, List.all])

/-- Key fact behind C10: a raw row with at most four non-negative entries
never passes the validity mask, because after normalization its entries sum
to one, so some entry exceeds 1/4 > 0.2. -/
lemma validWeightRow_eq_false_of_short {r : List ℚ}
    (hlen : r.length ≤ 4) (hnn : ∀ x ∈ r, 0 ≤ x) :
    validWeightRow r = false := by
  by_contra h
  have h' : validWeightRow r = true := by
    cases hv : validWeightRow r with
    | false => exact absurd hv h
    | true => rfl
  simp only [validWeightRow, Bool.and_eq_true, decide_eq_true_eq,
    List.all_eq_true] at h'
  obtain ⟨hpos', hdiv⟩ := h'
  have hall' : ∀ x ∈ r, x ≤ r.sum / 5 := by
    intro x hx
    have := hdiv x hx
    calc x = x / r.sum * r.sum := by field_simp
    _ ≤ 1/5 * r.sum := by
        apply mul_le_mul_of_nonneg_right this (le_of_lt hpos')
    _ = r.sum / 5 := by ring
  have hbound : r.sum ≤ (r.length : ℚ) * (r.sum / 5) := by
    have := List.sum_le_card_nsmul r (r.sum / 5) hall'
    simpa [nsmul_eq_mul] using this
  have hlen' : (r.length : ℚ) ≤ 4 := by exact_mod_cast hlen
  have hq : (r.length : ℚ) * (r.sum / 5) ≤ 4 * (r.sum / 5) := by
    apply mul_le_mul_of_nonneg_right hlen'
    positivity
  have : r.sum ≤ 4 * (r.sum / 5) := le_trans hbound hq
  nlinarith

/-- C10.  For 1 <= nAssets <= 4 and nSimulations >= 1, every
rejection-sampling attempt of generate_valid_weights keeps zero rows, so the
function recurses unconditionally with unchanged arguments: for every
sequence of raw draws it never returns. -/
theorem generate_valid_weights_diverges
    (draws : List (List (List ℚ))) (n nSim : ℕ)
    (hn1 : 1 ≤ n) (hn4 : n ≤ 4) (hsim : 1 ≤ nSim)
    (hshape : ∀ raw ∈ draws, ∀ r ∈ raw, r.length = n ∧ ∀ x ∈ r, 0 ≤ x) :
    generate_valid_weights draws nSim = none := by
  induction draws with
  | nil => rfl
  | cons raw rest ih =>
    have hempty : generate_valid_weights_attempt raw = [] := by
      unfold generate_valid_weights_attempt
      have : raw.filter validWeightRow = [] := by
        rw [List.filter_eq_nil]
        intro r hr
        have h := hshape raw (List.mem_cons_self _ _) r hr
        rw [validWeightRow_eq_false_of_short (h.1 ▸ hn4) h.2]
        simp
      rw [this]; rfl
    rw [generate_valid_weights, hempty]
    have : ([] : List (List ℚ)).length < nSim := by simpa using hsim
    rw [if_pos this]
    exact ih (fun b hb => hshape b (List.mem_cons_of_mem _ hb))

/-- Witness for C10 at a concrete input: two assets, one simulation, one
supplied draw batch. -/
theorem generate_valid_weights_diverges_witness :
    (1 ≤ 2 ∧ 2 ≤ 4 ∧ 1 ≤ 1 ∧
      ∀ raw ∈ [[[(1:ℚ), 1]]], ∀ r ∈ raw, r.length = 2 ∧ ∀ x ∈ r, 0 ≤ x) ∧
      generate_valid_weights [[[(1:ℚ), 1]]] 1 = none := by
  refine ⟨⟨by decide, by decide, le_refl 1, by decide⟩, ?_⟩
  exact generate_valid_weights_diverges [[[(1:ℚ), 1]]] 2 1
    (by decide) (by decide) (le_refl 1) (by decide)

/- ------------------------------------------------------------------ -/
/- Combination enumerator: get_stock_combinations, utils.py 111-121    -/
/- ------------------------------------------------------------------ -/

lemma length_combos {α : Type} (l : List α) (k : ℕ) :
    (combos l k).length = l.length.choose k := by
  induction l generalizing k with
  | nil => cases k <;> simp [combos]
  | cons x xs ih =>
    cases k with
    | zero => simp [combos]
    | succ k => simp [combos, ih, Nat.choose_succ_succ, Nat.add_comm]

lemma length_of_mem_combos {α : Type} {l : List α} {k : ℕ} {s : List α}
    (h : s ∈ combos l k) : s.length = k := by
  induction l generalizing k s with
  | nil =>
    cases k with
    | zero => simp [combos] at h; simp [h]
    | succ k => simp [combos] at h
  | cons x xs ih =>
    cases k with
    | zero => simp [combos] at h; simp [h]
    | succ k =>
      rw [combos, List.mem_append] at h
      rcases h with h | h
      · rcases List.mem_map.mp h with ⟨c, hc, hs⟩
        subst hs
        simp [ih hc]
      · exact ih h

lemma sublist_of_mem_combos {α : Type} {l : List α} {k : ℕ} {s : List α}
    (h : s ∈ combos l k) : s.Sublist l := by
  induction l generalizing k s with
  | nil =>
    cases k with
    | zero => simp [combos] at h; simp [h]
    | succ k => simp [combos] at h
  | cons x xs ih =>
    cases k with
    | zero => simp [combos] at h; simp [h]
    | succ k =>
      rw [combos, List.mem_append] at h
      rcases h with h | h
      · rcases List.mem_map.mp h with ⟨c, hc, hs⟩
        subst hs
        exact List.Sublist.cons₂ x (ih hc)
      · exact List.Sublist.cons x (ih h)

/-- Two sublists of a duplicate-free list that are permutations of each
other are equal: a subset of a nodup universe determines its tuple. -/
lemma sublist_eq_of_perm {α : Type} {l s t : List α}
    (hl : l.Nodup) (hs : s.Sublist l) (ht : t.Sublist l) (hp : s.Perm t) :
    s = t := by
  induction l generalizing s t with
  | nil =>
    rw [List.sublist_nil.mp hs, List.sublist_nil.mp ht]
  | cons x xs ih =>
    have hxl : x ∉ xs := (List.nodup_cons.mp hl).1
    have hxs : xs.Nodup := (List.nodup_cons.mp hl).2
    cases hs with
    | cons _ hs' =>
      cases ht with
      | cons _ ht' => exact ih hxs hs' ht' hp
      | cons₂ _ ht' =>
        exfalso
        have : x ∈ s := hp.symm.subset (List.mem_cons_self _ _)
        exact hxl (hs'.subset this)
    | cons₂ _ hs' =>
      cases ht with
      | cons _ ht' =>
        exfalso
        have : x ∈ t := hp.subset (List.mem_cons_self _ _)
        exact hxl (ht'.subset this)
      | cons₂ _ ht' =>
        rw [ih hxs hs' ht' (List.Perm.cons_inv hp)]

lemma nodup_combos {α : Type} {l : List α} (hl : l.Nodup) (k : ℕ) :
    (combos l k).Nodup := by
  induction l generalizing k with
  | nil => cases k <;> simp [combos]
  | cons x xs ih =>
    have hxl : x ∉ xs := (List.nodup_cons.mp hl).1
    have hxs : xs.Nodup := (List.nodup_cons.mp hl).2
    cases k with
    | zero => simp [combos]
    | succ k =>
      rw [combos]
      apply List.Nodup.append
      · exact (ih hxs k).map (fun a b => by simp)
      · exact ih hxs (k + 1)
      · intro s hsm hsr
        rcases List.mem_map.mp hsm with ⟨c, _, hs⟩
        subst hs
        have : x ∈ xs := (sublist_of_mem_combos hsr).subset (List.mem_cons_self _ _)
        exact hxl this

/-- Lexicographic ordering of the enumeration: when the universe is
pairwise-related by r, consecutive combinations are related by the induced
lexicographic order on tuples. -/
lemma combos_pairwise_lex {α : Type} {r : α → α → Prop} :
    ∀ {l : List α}, l.Pairwise r → ∀ k, (combos l k).Pairwise (List.Lex r)
  | [], _, 0 => by simp [combos]
  | [], _, _ + 1 => by simp [combos]
  | x :: xs, hl, 0 => by simp [combos]
  | x :: xs, hl, k + 1 => by
    obtain ⟨hx, hxs⟩ := List.pairwise_cons.mp hl
    rw [combos, List.pairwise_append]
    refine ⟨?_, ?_, ?_⟩
    · rw [List.pairwise_map]
      exact List.Pairwise.imp (fun h => List.Lex.cons h) (combos_pairwise_lex hxs k)
    · exact combos_pairwise_lex hxs (k + 1)
    · intro s hsm t hst
      rcases List.mem_map.mp hsm with ⟨c, _, hs⟩
      subst hs
      have hlen : t.length = k + 1 := length_of_mem_combos hst
      cases t with
      | nil => simp at hlen
      | cons y t' =>
        have hy : y ∈ xs :=
          (sublist_of_mem_combos hst).subset (List.mem_cons_self _ _)
        exact List.Lex.rel (hx y hy)

lemma pairwise_indexOf_lt_of_nodup {α : Type} [DecidableEq α] :
    ∀ {l : List α}, l.Nodup →
      l.Pairwise (fun a b => l.indexOf a < l.indexOf b)
  | [], _ => by simp
  | x :: xs, hl => by
    have hxl : x ∉ xs := (List.nodup_cons.mp hl).1
    have hxs : xs.Nodup := (List.nodup_cons.mp hl).2
    rw [List.pairwise_cons]
    constructor
    · intro b hb
      have hbx : b ≠ x := fun h => hxl (h ▸ hb)
      rw [List.indexOf_cons_self, List.indexOf_cons_ne _ (Ne.symm hbx)]
      exact Nat.succ_pos _
    · have := pairwise_indexOf_lt_of_nodup hxs
      refine List.Pairwise.imp_of_mem ?_ this
      intro a b ha hb hab
      have hax : a ≠ x := fun h => hxl (h ▸ ha)
      have hbx : b ≠ x := fun h => hxl (h ▸ hb)
      rw [List.indexOf_cons_ne _ (Ne.symm hax), List.indexOf_cons_ne _ (Ne.symm hbx)]
      exact Nat.succ_lt_succ hab

/-- C3.  On a duplicate-free universe, get_stock_combinations returns
exactly choose (n, k) tuples, each of length k without duplicate symbols,
no tuple repeated even as an unordered collection of symbols, and the
tuples appear in lexicographic order induced by the input order of the
universe (position given by indexOf). -/
theorem get_stock_combinations_spec (l : List String) (k : ℕ) (hl : l.Nodup) :
    (get_stock_combinations l k).length = l.length.choose k ∧
    (∀ s ∈ get_stock_combinations l k, s.length = k ∧ s.Nodup) ∧
    (get_stock_combinations l k).Pairwise (fun s t => ¬ s.Perm t) ∧
    (get_stock_combinations l k).Pairwise
      (List.Lex (fun a b => l.indexOf a < l.indexOf b)) := by
  refine ⟨length_combos l k, ?_, ?_, ?_⟩
  · intro s hs
    exact ⟨length_of_mem_combos hs,
      (sublist_of_mem_combos hs).nodup hl⟩
  · refine List.Pairwise.imp_of_mem ?_ (List.Nodup.pairwise_of_forall_ne
      (nodup_combos hl k) (fun a _ b _ h => h))
    intro s t hs ht hne hperm
    exact hne (sublist_eq_of_perm hl (sublist_of_mem_combos hs)
      (sublist_of_mem_combos ht) hperm)
  · exact combos_pairwise_lex (pairwise_indexOf_lt_of_nodup hl) k

/-- Witness for C3 at a concrete universe of three distinct symbols. -/
theorem get_stock_combinations_spec_witness :
    (["A", "B", "C"] : List String).Nodup ∧
      ((get_stock_combinations ["A", "B", "C"] 2).length =
          (["A", "B", "C"] : List String).length.choose 2 ∧
        (∀ s ∈ get_stock_combinations ["A", "B", "C"] 2, s.length = 2 ∧ s.Nodup) ∧
        (get_stock_combinations ["A", "B", "C"] 2).Pairwise (fun s t => ¬ s.Perm t) ∧
        (get_stock_combinations ["A", "B", "C"] 2).Pairwise
          (List.Lex (fun a b =>
            (["A", "B", "C"] : List String).indexOf a <
              (["A", "B", "C"] : List String).indexOf b))) := by
  have h : (["A", "B", "C"] : List String).Nodup := by decide
  exact ⟨h, get_stock_combinations_spec ["A", "B", "C"] 2 h⟩

/- ------------------------------------------------------------------ -/
/- Metrics kernel: utils.py lines 17-87                                -/
/- ------------------------------------------------------------------ -/

lemma dot_nil_right (a : List ℚ) : dot a [] = 0 := by cases a <;> rfl

lemma dot_cons (x y : ℚ) (a b : List ℚ) :
    dot (x :: a) (y :: b) = x * y + dot a b := rfl

lemma dot_comm (a b : List ℚ) : dot a b = dot b a := by
  induction a generalizing b with
  | nil => cases b <;> rfl
  | cons x a ih =>
    cases b with
    | nil => rfl
    | cons y b => rw [dot_cons, dot_cons, ih, mul_comm]

lemma dot_map_mul_left (c : ℚ) (a b : List ℚ) :
    dot (a.map (fun x => x * c)) b = c * dot a b := by
  induction a generalizing b with
  | nil => simp [dot]
  | cons x a ih =>
    cases b with
    | nil => simp [dot_nil_right]
    | cons y b =>
      rw [List.map_cons, dot_cons, dot_cons, ih]
      ring

lemma dot_map_mul_right (c : ℚ) (a b : List ℚ) :
    dot a (b.map (fun x => c * x)) = c * dot a b := by
  induction a generalizing b with
  | nil => simp [dot]
  | cons x a ih =>
    cases b with
    | nil => simp [dot_nil_right]
    | cons y b =>
      rw [List.map_cons, dot_cons, dot_cons, ih]
      ring

/-- The single-vector quadratic form with cov pre-multiplied by 252 equals
252 times the batched quadratic form with the raw covariance. -/
lemma single_variance_eq (R : List (List ℚ)) (w : List ℚ) :
    dot w ((cov252 R).map (fun row => dot row w)) =
      252 * dot ((npCov R).map (fun row => dot row w)) w := by
  have h1 : (cov252 R).map (fun row => dot row w) =
      ((npCov R).map (fun row => dot row w)).map (fun x => 252 * x) := by
    unfold cov252
    rw [List.map_map, List.map_map]
    simp only [Function.comp_def, dot_map_mul_left]
  rw [h1, dot_map_mul_right, dot_comm]

/-- C2.  The batched kernel agrees row-for-row with the single-vector
functions: for every returns matrix, batch of weight rows, and row index,
the annual return, annualized volatility, and Sharpe ratio of that row
equal the values of calculate_portfolio_return,
calculate_portfolio_volatility, and calculate_sharpe_ratio on the row
alone (exactly, in the exact-arithmetic embedding). -/
theorem calculate_portfolio_metrics_vectorized_spec
    (R W : List (List ℚ)) (i : ℕ) (w : List ℚ) (hw : W.get? i = some w) :
    (calculate_portfolio_metrics_vectorized R W).2.1.get? i =
        some (calculate_portfolio_return R w) ∧
    (calculate_portfolio_metrics_vectorized R W).2.2.get? i =
        some (calculate_portfolio_volatility R w) ∧
    (calculate_portfolio_metrics_vectorized R W).1.get? i =
        some (calculate_sharpe_ratio R w) := by
  have hvol : calculate_portfolio_volatility R w =
      annualVol (dot ((npCov R).map (fun row => dot row w)) w) := by
    unfold calculate_portfolio_volatility annualVol
    rw [single_variance_eq]
    push_cast
    rw [Real.sqrt_mul (by norm_num : (0:ℝ) ≤ 252)]
    ring
  have hret : calculate_portfolio_return R w = dot w (mean_returns R) :=
    dot_comm _ _
  have hsharpe : calculate_sharpe_ratio R w =
      sharpeVal (dot w (mean_returns R))
        (dot ((npCov R).map (fun row => dot row w)) w) := by
    unfold calculate_sharpe_ratio sharpeVal
    rw [hvol, hret]
  have hcore : (metrics_core R W).get? i =
      some (dot w (mean_returns R),
        dot ((npCov R).map (fun row => dot row w)) w) := by
    unfold metrics_core
    rw [List.get?_map, hw]
    rfl
  refine ⟨?_, ?_, ?_⟩
  · show ((metrics_core R W).map (fun p => p.1)).get? i = _
    rw [List.get?_map, hcore, hret]
    rfl
  · show ((metrics_core R W).map (fun p => annualVol p.2)).get? i = _
    rw [List.get?_map, hcore, hvol]
    rfl
  · show ((metrics_core R W).map (fun p => sharpeVal p.1 p.2)).get? i = _
    rw [List.get?_map, hcore, hsharpe]
    rfl

/-- Witness for C2 at a concrete two-asset returns matrix and a batch of
one weight row. -/
theorem calculate_portfolio_metrics_vectorized_spec_witness :
    ([[(1:ℚ)/2, 1/2]].get? 0 = some [(1:ℚ)/2, 1/2]) ∧
    ((calculate_portfolio_metrics_vectorized
        [[(1:ℚ)/100, 2/100], [3/100, 1/100]] [[(1:ℚ)/2, 1/2]]).2.1.get? 0 =
        some (calculate_portfolio_return
          [[(1:ℚ)/100, 2/100], [3/100, 1/100]] [(1:ℚ)/2, 1/2]) ∧
      (calculate_portfolio_metrics_vectorized
        [[(1:ℚ)/100, 2/100], [3/100, 1/100]] [[(1:ℚ)/2, 1/2]]).2.2.get? 0 =
        some (calculate_portfolio_volatility
          [[(1:ℚ)/100, 2/100], [3/100, 1/100]] [(1:ℚ)/2, 1/2]) ∧
      (calculate_portfolio_metrics_vectorized
        [[(1:ℚ)/100, 2/100], [3/100, 1/100]] [[(1:ℚ)/2, 1/2]]).1.get? 0 =
        some (calculate_sharpe_ratio
          [[(1:ℚ)/100, 2/100], [3/100, 1/100]] [(1:ℚ)/2, 1/2])) :=
  ⟨rfl, calculate_portfolio_metrics_vectorized_spec
    [[(1:ℚ)/100, 2/100], [3/100, 1/100]] [[(1:ℚ)/2, 1/2]] 0 [(1:ℚ)/2, 1/2] rfl⟩

/- ------------------------------------------------------------------ -/
/- Daily returns: calculate_daily_returns, utils.py lines 6-15         -/
/- ------------------------------------------------------------------ -/

/-- Counterexample to C6 as stated: on a one-row price matrix
calculate_daily_returns returns an empty returns matrix, it does not fail
with EmptyInputError (no error exists in the code). -/
theorem calculate_daily_returns_counterexample :
    calculate_daily_returns [[(1:ℚ), 2]] = .ok [] ∧
      calculate_daily_returns [[(1:ℚ), 2]] ≠
        .error DailyReturnsError.EmptyInputError :=
  ⟨rfl, by simp [calculate_daily_returns]⟩

/-- C6, amended.  calculate_daily_returns never fails; with fewer than 2
rows it returns the empty returns matrix, and on a rectangular matrix of
positive prices it returns exactly one row fewer than the input, with the
same number of columns, each result row being the elementwise percentage
change between the two consecutive input rows. -/
theorem calculate_daily_returns_spec (prices : List (List ℚ)) (m : ℕ)
    (hrect : ∀ row ∈ prices, row.length = m)
    (hpos : ∀ row ∈ prices, ∀ x ∈ row, 0 < x) :
    ∃ res, calculate_daily_returns prices = .ok res ∧
      res.length = prices.length - 1 ∧
      (∀ row ∈ res, row.length = m) ∧
      (prices.length < 2 → res = []) ∧
      ∀ t prev cur, prices.get? t = some prev →
        prices.get? (t + 1) = some cur →
        res.get? t = some ((cur.zip prev).map (fun xy => xy.1 / xy.2 - 1)) := by
  refine ⟨pct_change_dropna prices, rfl, ?_, ?_, ?_, ?_⟩
  · unfold pct_change_dropna
    rw [List.length_map, List.length_zip, List.length_tail]
    omega
  · intro row hrow
    unfold pct_change_dropna at hrow
    rcases List.mem_map.mp hrow with ⟨pc, hpc, hform⟩
    have hmem := List.mem_zip hpc
    have h1 : pc.1 ∈ prices := hmem.1
    have h2 : pc.2 ∈ prices := (List.tail_sublist prices).subset hmem.2
    subst hform
    rw [List.length_map, List.length_zip, hrect _ h1, hrect _ h2, min_self]
  · intro hshort
    have : (pct_change_dropna prices).length = 0 := by
      unfold pct_change_dropna
      rw [List.length_map, List.length_zip, List.length_tail]
      omega
    exact List.length_eq_zero.mp this
  · intro t prev cur hprev hcur
    unfold pct_change_dropna
    rw [List.get?_map]
    have hzip : (prices.zip prices.tail).get? t = some (prev, cur) := by
      rw [List.get?_zip_eq_some]
      refine ⟨hprev, ?_⟩
      simpa using hcur
    rw [hzip]
    rfl

/-- Witness for the amended C6 at a concrete three-row price matrix. -/
theorem calculate_daily_returns_spec_witness :
    ((∀ row ∈ [[(1:ℚ), 2], [2, 4], [1, 1]], row.length = 2) ∧
      (∀ row ∈ [[(1:ℚ), 2], [2, 4], [1, 1]], ∀ x ∈ row, 0 < x)) ∧
      (∃ res, calculate_daily_returns [[(1:ℚ), 2], [2, 4], [1, 1]] = .ok res ∧
        res.length = ([[(1:ℚ), 2], [2, 4], [1, 1]] : List (List ℚ)).length - 1 ∧
        (∀ row ∈ res, row.length = 2) ∧
        (([[(1:ℚ), 2], [2, 4], [1, 1]] : List (List ℚ)).length < 2 → res = []) ∧
        ∀ t prev cur,
          ([[(1:ℚ), 2], [2, 4], [1, 1]] : List (List ℚ)).get? t = some prev →
          ([[(1:ℚ), 2], [2, 4], [1, 1]] : List (List ℚ)).get? (t + 1) = some cur →
          res.get? t = some ((cur.zip prev).map (fun xy => xy.1 / xy.2 - 1))) :=
  ⟨⟨by decide, by decide⟩,
    calculate_daily_returns_spec [[(1:ℚ), 2], [2, 4], [1, 1]] 2
      (by decide) (by decide)⟩

/- ------------------------------------------------------------------ -/
/- Decidable comparison of embedded sharpe ratios                      -/
/- ------------------------------------------------------------------ -/

lemma annualVol_pos {v : ℚ} (h : 0 < v) : 0 < annualVol v := by
  unfold annualVol
  apply mul_pos
  · exact Real.sqrt_pos.mpr (by exact_mod_cast h)
  · exact Real.sqrt_pos.mpr (by norm_num)

lemma annualVol_eq_zero {v : ℚ} (h : v ≤ 0) : annualVol v = 0 := by
  unfold annualVol
  have hz : Real.sqrt (v : ℝ) = 0 := Real.sqrt_eq_zero'.mpr (by exact_mod_cast h)
  rw [hz, zero_mul]

lemma sq_annualVol {v : ℚ} (h : 0 ≤ v) : annualVol v ^ 2 = (v : ℝ) * 252 := by
  unfold annualVol
  rw [mul_pow, Real.sq_sqrt (by exact_mod_cast h), Real.sq_sqrt (by norm_num)]

lemma sharpeVal_of_nonpos {r v : ℚ} (h : v ≤ 0) : sharpeVal r v = 0 := by
  unfold sharpeVal
  rw [annualVol_eq_zero h, div_zero]

lemma sharpeVal_neg_iff {r v : ℚ} (hv : 0 < v) : sharpeVal r v < 0 ↔ r < 0 := by
  unfold sharpeVal
  rw [div_lt_iff (annualVol_pos hv), zero_mul]
  exact_mod_cast Iff.rfl

lemma sharpeVal_pos_iff {r v : ℚ} (hv : 0 < v) : 0 < sharpeVal r v ↔ 0 < r := by
  unfold sharpeVal
  rw [lt_div_iff (annualVol_pos hv), zero_mul]
  exact_mod_cast Iff.rfl

lemma sharpeVal_zero_iff {r v : ℚ} (hv : 0 < v) : sharpeVal r v = 0 ↔ r = 0 := by
  unfold sharpeVal
  rw [div_eq_zero_iff]
  constructor
  · rintro (h | h)
    · exact_mod_cast h
    · exact absurd h (ne_of_gt (annualVol_pos hv))
  · intro h
    exact Or.inl (by exact_mod_cast h)

lemma sharpeSign_eq_neg_one_iff (r v : ℚ) :
    sharpeSign r v = -1 ↔ sharpeVal r v < 0 := by
  unfold sharpeSign
  split_ifs with h1 h2 h3
  · simp [sharpeVal_of_nonpos h1]
  · simp [(sharpeVal_neg_iff (lt_of_not_le h1)).mpr h2]
  · have hval : sharpeVal r v = 0 := (sharpeVal_zero_iff (lt_of_not_le h1)).mpr h3
    simp [hval]
  · have : ¬ sharpeVal r v < 0 := by
      rw [sharpeVal_neg_iff (lt_of_not_le h1)]
      exact h2
    simp [this]

lemma sharpeSign_eq_one_iff (r v : ℚ) :
    sharpeSign r v = 1 ↔ 0 < sharpeVal r v := by
  unfold sharpeSign
  split_ifs with h1 h2 h3
  · simp [sharpeVal_of_nonpos h1]
  · have : ¬ 0 < sharpeVal r v := by
      rw [sharpeVal_pos_iff (lt_of_not_le h1)]
      exact not_lt_of_lt h2
    simp [this]
  · have : ¬ 0 < sharpeVal r v := by
      rw [sharpeVal_pos_iff (lt_of_not_le h1), h3]
      exact lt_irrefl 0
    simp [this]
  · have hr : 0 < r := lt_of_le_of_ne (not_lt.mp h2) (Ne.symm h3)
    simp [(sharpeVal_pos_iff (lt_of_not_le h1)).mpr hr]

lemma sharpeSign_eq_zero_iff (r v : ℚ) :
    sharpeSign r v = 0 ↔ sharpeVal r v = 0 := by
  unfold sharpeSign
  split_ifs with h1 h2 h3
  · simp [sharpeVal_of_nonpos h1]
  · have : sharpeVal r v < 0 := (sharpeVal_neg_iff (lt_of_not_le h1)).mpr h2
    constructor
    · intro h; exact absurd h (by decide)
    · intro h; exact absurd h (ne_of_lt this)
  · have hval : sharpeVal r v = 0 := (sharpeVal_zero_iff (lt_of_not_le h1)).mpr h3
    simp [hval]
  · have hr : 0 < r := lt_of_le_of_ne (not_lt.mp h2) (Ne.symm h3)
    have : 0 < sharpeVal r v := (sharpeVal_pos_iff (lt_of_not_le h1)).mpr hr
    constructor
    · intro h; exact absurd h (by decide)
    · intro h; exact absurd h.symm (ne_of_lt this)

lemma sharpeSign_cases (r v : ℚ) :
    sharpeSign r v = -1 ∨ sharpeSign r v = 0 ∨ sharpeSign r v = 1 := by
  unfold sharpeSign
  split_ifs <;> simp

/-- Strictly smaller sign means strictly smaller embedded sharpe value. -/
lemma sharpeVal_lt_of_sign_lt {a b : ℚ × ℚ}
    (h : sharpeSign a.1 a.2 < sharpeSign b.1 b.2) :
    sharpeVal a.1 a.2 < sharpeVal b.1 b.2 := by
  rcases sharpeSign_cases a.1 a.2 with ha | ha | ha <;>
    rcases sharpeSign_cases b.1 b.2 with hb | hb | hb <;>
      rw [ha, hb] at h
  · exact absurd h (by decide)
  · exact lt_of_lt_of_le ((sharpeSign_eq_neg_one_iff _ _).mp ha)
      (le_of_eq ((sharpeSign_eq_zero_iff _ _).mp hb).symm)
  · exact lt_trans ((sharpeSign_eq_neg_one_iff _ _).mp ha)
      ((sharpeSign_eq_one_iff _ _).mp hb)
  · exact absurd h (by decide)
  · exact absurd h (by decide)
  · exact lt_of_le_of_lt (le_of_eq ((sharpeSign_eq_zero_iff _ _).mp ha))
      ((sharpeSign_eq_one_iff _ _).mp hb)
  · exact absurd h (by decide)
  · exact absurd h (by decide)
  · exact absurd h (by decide)

/-- Cross-multiplied square comparison for two positive-sign ratios. -/
lemma sharpeVal_lt_iff_of_pos {a1 a2 b1 b2 : ℚ}
    (ha2 : 0 < a2) (hb2 : 0 < b2) (ha1 : 0 < a1) (hb1 : 0 < b1) :
    (sharpeVal a1 a2 < sharpeVal b1 b2 ↔ a1 ^ 2 * b2 < b1 ^ 2 * a2) := by
  have hDa := annualVol_pos ha2
  have hDb := annualVol_pos hb2
  unfold sharpeVal
  rw [div_lt_div_iff hDa hDb]
  have ha1R : (0:ℝ) < (a1 : ℝ) := by exact_mod_cast ha1
  have hb1R : (0:ℝ) < (b1 : ℝ) := by exact_mod_cast hb1
  rw [mul_self_lt_mul_self_iff
    (le_of_lt (mul_pos ha1R hDb)) (le_of_lt (mul_pos hb1R hDa))]
  have expand : ∀ (x : ℝ) (v : ℚ), 0 ≤ v →
      (x * annualVol v) * (x * annualVol v) = x ^ 2 * ((v : ℝ) * 252) := by
    intro x v hv
    have := sq_annualVol hv
    nlinarith [sq_annualVol hv]
  rw [expand _ b2 (le_of_lt hb2), expand _ a2 (le_of_lt ha2)]
  constructor
  · intro h
    have h252 : ((a1:ℝ) ^ 2 * (b2:ℝ)) * 252 < ((b1:ℝ) ^ 2 * (a2:ℝ)) * 252 := by
      nlinarith
    have : (a1:ℝ) ^ 2 * (b2:ℝ) < (b1:ℝ) ^ 2 * (a2:ℝ) := by nlinarith
    exact_mod_cast this
  · intro h
    have : (a1:ℝ) ^ 2 * (b2:ℝ) < (b1:ℝ) ^ 2 * (a2:ℝ) := by exact_mod_cast h
    nlinarith

lemma sharpeVal_neg_arg (r v : ℚ) : sharpeVal (-r) v = -sharpeVal r v := by
  unfold sharpeVal
  push_cast
  rw [neg_div]

/-- Cross-multiplied square comparison for two negative-sign ratios. -/
lemma sharpeVal_lt_iff_of_neg {a1 a2 b1 b2 : ℚ}
    (ha2 : 0 < a2) (hb2 : 0 < b2) (ha1 : a1 < 0) (hb1 : b1 < 0) :
    (sharpeVal a1 a2 < sharpeVal b1 b2 ↔ b1 ^ 2 * a2 < a1 ^ 2 * b2) := by
  have key := sharpeVal_lt_iff_of_pos hb2 ha2 (neg_pos.mpr hb1) (neg_pos.mpr ha1)
  rw [sharpeVal_neg_arg, sharpeVal_neg_arg, neg_lt_neg_iff, neg_sq, neg_sq] at key
  exact key

lemma sharpeSign_one_dest {r v : ℚ} (h : sharpeSign r v = 1) :
    0 < v ∧ 0 < r := by
  unfold sharpeSign at h
  split_ifs at h with h1 h2 h3
  all_goals try exact absurd h (by decide)
  exact ⟨lt_of_not_le h1, lt_of_le_of_ne (not_lt.mp h2) (Ne.symm h3)⟩

lemma sharpeSign_neg_one_dest {r v : ℚ} (h : sharpeSign r v = -1) :
    0 < v ∧ r < 0 := by
  unfold sharpeSign at h
  split_ifs at h with h1 h2 h3
  all_goals try exact absurd h (by decide)
  exact ⟨lt_of_not_le h1, h2⟩

/-- The boolean comparison agrees with the strict order on embedded
sharpe ratios. -/
lemma sharpeLt_iff (a b : ℚ × ℚ) :
    sharpeLt a b = true ↔ sharpeVal a.1 a.2 < sharpeVal b.1 b.2 := by
  unfold sharpeLt
  split_ifs with h1 h2 h3 h4
  · simp only [true_iff]
    exact sharpeVal_lt_of_sign_lt h1
  · simp only [false_iff, not_lt]
    exact le_of_lt (sharpeVal_lt_of_sign_lt h2)
  · obtain ⟨hv, hr⟩ := sharpeSign_one_dest h3
    have hsb : sharpeSign b.1 b.2 = 1 := by omega
    obtain ⟨hv', hr'⟩ := sharpeSign_one_dest hsb
    rw [decide_eq_true_eq, sharpeVal_lt_iff_of_pos hv hv' hr hr']
  · obtain ⟨hv, hr⟩ := sharpeSign_neg_one_dest h4
    have hsb : sharpeSign b.1 b.2 = -1 := by omega
    obtain ⟨hv', hr'⟩ := sharpeSign_neg_one_dest hsb
    rw [decide_eq_true_eq, sharpeVal_lt_iff_of_neg hv hv' hr hr']
  · have hsa : sharpeSign a.1 a.2 = 0 := by
      rcases sharpeSign_cases a.1 a.2 with h | h | h
      · exact absurd h h4
      · exact h
      · exact absurd h h3
    have hsb : sharpeSign b.1 b.2 = 0 := by omega
    have hva := (sharpeSign_eq_zero_iff a.1 a.2).mp hsa
    have hvb := (sharpeSign_eq_zero_iff b.1 b.2).mp hsb
    simp [hva, hvb]

/- ------------------------------------------------------------------ -/
/- np.argmax and find_best_portfolio_from_batch, utils.py 139-162      -/
/- ------------------------------------------------------------------ -/

lemma argmaxGo_spec {α : Type} (lt : α → α → Bool) (f : α → ℝ)
    (hlt : ∀ x y, lt x y = true ↔ f x < f y) :
    ∀ (rest : List α) (i bi : ℕ) (bv : α), bi < i →
      ∃ mv, ((argmaxGo lt rest i bi bv = bi ∧ mv = bv) ∨
              (argmaxGo lt rest i bi bv, mv) ∈ rest.enumFrom i) ∧
        f bv ≤ f mv ∧
        (∀ q ∈ rest.enumFrom i, f q.2 ≤ f mv) ∧
        (bi < argmaxGo lt rest i bi bv → f bv < f mv) ∧
        (∀ q ∈ rest.enumFrom i, q.1 < argmaxGo lt rest i bi bv → f q.2 < f mv) := by
  intro rest
  induction rest with
  | nil =>
    intro i bi bv _
    refine ⟨bv, Or.inl ⟨rfl, rfl⟩, le_refl _, ?_, ?_, ?_⟩
    · intro q hq; simp at hq
    · intro hc; rw [argmaxGo] at hc; exact absurd hc (lt_irrefl bi)
    · intro q hq; simp at hq
  | cons x xs ih =>
    intro i bi bv hbi
    rw [List.enumFrom_cons]
    by_cases hx : lt bv x = true
    · have hfx : f bv < f x := (hlt bv x).mp hx
      have hrec : argmaxGo lt (x :: xs) i bi bv = argmaxGo lt xs (i + 1) i x := by
        rw [argmaxGo, if_pos hx]
      rcases ih (i + 1) i x (Nat.lt_succ_self i) with
        ⟨mv, hmem, hle, hall, hstrict, hstrictall⟩
      refine ⟨mv, ?_, le_of_lt (lt_of_lt_of_le hfx hle), ?_, ?_, ?_⟩
      · rcases hmem with ⟨hm, hv⟩ | hm
        · exact Or.inr (by rw [hrec, hm, hv]; exact List.mem_cons_self _ _)
        · exact Or.inr (by rw [hrec]; exact List.mem_cons_of_mem _ hm)
      · intro q hq
        rcases List.mem_cons.mp hq with hq | hq
        · rw [hq]; exact hle
        · exact hall q hq
      · intro _
        exact lt_of_lt_of_le hfx hle
      · intro q hq hqlt
        rw [hrec] at hqlt
        rcases List.mem_cons.mp hq with hq' | hq'
        · rw [hq']
          rw [hq'] at hqlt
          exact hstrict hqlt
        · exact hstrictall q hq' hqlt
    · have hfx : f x ≤ f bv := by
        rcases lt_or_le (f x) (f bv) with h | h
        · exact le_of_lt h
        · rcases lt_or_eq_of_le h with h' | h'
          · exact absurd ((hlt bv x).mpr h') (by simp [hx])
          · exact le_of_eq h'.symm
      have hrec : argmaxGo lt (x :: xs) i bi bv = argmaxGo lt xs (i + 1) bi bv := by
        rw [argmaxGo, if_neg (by simp [hx])]
      rcases ih (i + 1) bi bv (Nat.lt_succ_of_lt hbi) with
        ⟨mv, hmem, hle, hall, hstrict, hstrictall⟩
      refine ⟨mv, ?_, hle, ?_, ?_, ?_⟩
      · rcases hmem with ⟨hm, hv⟩ | hm
        · exact Or.inl (by rw [hrec]; exact ⟨hm, hv⟩)
        · exact Or.inr (by rw [hrec]; exact List.mem_cons_of_mem _ hm)
      · intro q hq
        rcases List.mem_cons.mp hq with hq | hq
        · rw [hq]; exact le_trans hfx hle
        · exact hall q hq
      · intro hc
        rw [hrec] at hc
        exact hstrict hc
      · intro q hq hqlt
        rw [hrec] at hqlt
        rcases List.mem_cons.mp hq with hq' | hq'
        · rw [hq']
          rw [hq'] at hqlt
          have hm : bi < argmaxGo lt xs (i + 1) bi bv := lt_trans hbi hqlt
          exact lt_of_le_of_lt hfx (hstrict hm)
        · exact hstrictall q hq' hqlt

/-- Specification of np.argmax: on a nonempty list it returns the index of
the first element attaining the maximum of f. -/
lemma npArgmax_spec {α : Type} (lt : α → α → Bool) (f : α → ℝ)
    (hlt : ∀ x y, lt x y = true ↔ f x < f y) (l : List α)
    (hne : l ≠ []) :
    ∃ m mv, npArgmax lt l = some m ∧ l.get? m = some mv ∧
      (∀ j w, l.get? j = some w → f w ≤ f mv) ∧
      (∀ j w, l.get? j = some w → j < m → f w < f mv) := by
  cases l with
  | nil => exact absurd rfl hne
  | cons x xs =>
    rcases argmaxGo_spec lt f hlt xs 1 0 x (Nat.zero_lt_one) with
      ⟨mv, hmem, hle, hall, hstrict, hstrictall⟩
    set m := argmaxGo lt xs 1 0 x with hm
    have hget : (x :: xs).get? m = some mv := by
      rcases hmem with ⟨hm0, hv⟩ | hmem
      · rw [hm0, hv]; rfl
      · rcases List.mk_mem_enumFrom_iff_le_and_get?_sub.mp hmem with ⟨h1, h2⟩
        rcases Nat.exists_eq_add_of_le h1 with ⟨k, hk⟩
        rw [hk]
        rw [hk] at h2
        simpa [Nat.add_comm 1 k] using h2
    refine ⟨m, mv, rfl, hget, ?_, ?_⟩
    · intro j w hj
      cases j with
      | zero =>
        have : x = w := by simpa using hj
        rw [← this]; exact hle
      | succ k =>
        have hk : xs.get? k = some w := by simpa using hj
        have : (1 + k, w) ∈ xs.enumFrom 1 :=
          List.mk_add_mem_enumFrom_iff_get?.mpr hk
        exact hall (1 + k, w) this
    · intro j w hj hjm
      cases j with
      | zero =>
        have : x = w := by simpa using hj
        rw [← this]
        exact hstrict hjm
      | succ k =>
        have hk : xs.get? k = some w := by simpa using hj
        have hmem' : (1 + k, w) ∈ xs.enumFrom 1 :=
          List.mk_add_mem_enumFrom_iff_get?.mpr hk
        exact hstrictall (1 + k, w) hmem' (by simpa [Nat.add_comm] using hjm)

/-- Counterexample to C7 as stated: on a returns matrix with two identical
rows every portfolio has zero volatility, yet find_best_portfolio_from_batch
raises nothing and returns a record built from the zero-volatility sample —
the offending sample is selected, not discarded. -/
theorem find_best_portfolio_from_batch_counterexample :
    find_best_portfolio_from_batch [[(3:ℚ), 3], [3, 3]] [[(1:ℚ), 0]]
        ["A", "B"] =
      some { stocks := ["A", "B"], weights := [("A", 1), ("B", 0)],
             annual_return := 756, var_daily := 0 } ∧
    PortfolioRecord.annual_volatility
        { stocks := ["A", "B"], weights := [("A", 1), ("B", 0)],
          annual_return := (756:ℚ), var_daily := 0 } = 0 := by
  constructor
  · have hcore : metrics_core [[(3:ℚ), 3], [3, 3]] [[(1:ℚ), 0]] =
        [((756:ℚ), 0)] := by
      norm_num [metrics_core, mean_returns, npCov, npTranspose, numCols,
        npMean, dot, List.range_succ, List.filterMap_cons]
    rw [find_best_portfolio_from_batch, hcore]
    rfl
  · show annualVol 0 = 0
    exact annualVol_eq_zero (le_refl 0)

/-- C7, amended.  The code contains no zero-volatility detection: when the
weight batch is nonempty and every sampled row has zero portfolio variance,
no error is produced and the returned best record is itself a
zero-volatility sample (annualized volatility 0). -/
theorem find_best_portfolio_from_batch_degenerate (R W : List (List ℚ))
    (combination : List String) (hne : W ≠ [])
    (hdeg : ∀ p ∈ metrics_core R W, p.2 = 0) :
    ∃ rec, find_best_portfolio_from_batch R W combination = some rec ∧
      rec.var_daily = 0 ∧ rec.annual_volatility = 0 := by
  have hcne : metrics_core R W ≠ [] := by
    unfold metrics_core
    simpa using hne
  rcases npArgmax_spec sharpeLt (fun p => sharpeVal p.1 p.2) sharpeLt_iff
    (metrics_core R W) hcne with ⟨m, mv, harg, hget, _, _⟩
  have hmlt : m < (metrics_core R W).length := (List.get?_eq_some.mp hget).1
  have hWlt : m < W.length := by
    have : (metrics_core R W).length = W.length := by
      unfold metrics_core; exact List.length_map _ _
    omega
  have hWget : W.get? m = some (W.get ⟨m, hWlt⟩) :=
    List.get?_eq_some.mpr ⟨hWlt, rfl⟩
  have hv : mv.2 = 0 := hdeg mv (List.get?_mem hget)
  refine ⟨{ stocks := combination,
            weights := combination.zip (W.get ⟨m, hWlt⟩),
            annual_return := mv.1, var_daily := mv.2 }, ?_, hv, ?_⟩
  · simp only [find_best_portfolio_from_batch, harg, hWget, hget]
  · show annualVol mv.2 = 0
    rw [hv]
    exact annualVol_eq_zero (le_refl 0)

/-- Witness for the amended C7 at the concrete degenerate input. -/
theorem find_best_portfolio_from_batch_degenerate_witness :
    (([[(1:ℚ), 0]] : List (List ℚ)) ≠ [] ∧
      ∀ p ∈ metrics_core [[(3:ℚ), 3], [3, 3]] [[(1:ℚ), 0]], p.2 = 0) ∧
    ∃ rec, find_best_portfolio_from_batch [[(3:ℚ), 3], [3, 3]] [[(1:ℚ), 0]]
        ["A", "B"] = some rec ∧
      rec.var_daily = 0 ∧ rec.annual_volatility = 0 := by
  have hdeg : ∀ p ∈ metrics_core [[(3:ℚ), 3], [3, 3]] [[(1:ℚ), 0]], p.2 = 0 := by
    have hcore : metrics_core [[(3:ℚ), 3], [3, 3]] [[(1:ℚ), 0]] =
        [((756:ℚ), 0)] := by
      norm_num [metrics_core, mean_returns, npCov, npTranspose, numCols,
        npMean, dot, List.range_succ, List.filterMap_cons]
    rw [hcore]
    intro p hp
    rw [List.mem_singleton.mp hp]
  exact ⟨⟨by simp, hdeg⟩,
    find_best_portfolio_from_batch_degenerate [[(3:ℚ), 3], [3, 3]]
      [[(1:ℚ), 0]] ["A", "B"] (by simp) hdeg⟩

/- ------------------------------------------------------------------ -/
/- Per-combination evaluator: process_stock_combination, lines 12-30   -/
/- ------------------------------------------------------------------ -/

/-- C8.  process_stock_combination never raises: every run either yields
None (any internal failure) or a record binding the combination symbols to
the batch row of maximum sharpe ratio, ties resolved by the lowest row
index. -/
theorem process_stock_combination_spec (draws : List (List (List ℚ)))
    (combination : List String) (returns_array : List (List ℚ))
    (column_indices : List ℕ) (n_simulations : ℕ) :
    process_stock_combination draws combination returns_array
        column_indices n_simulations = none ∨
    ∃ sel wb i w m,
      selectColumns returns_array column_indices = some sel ∧
      generate_valid_weights draws n_simulations = some wb ∧
      wb.get? i = some w ∧
      (metrics_core sel wb).get? i = some m ∧
      process_stock_combination draws combination returns_array
          column_indices n_simulations =
        some { stocks := combination, weights := combination.zip w,
               annual_return := m.1, var_daily := m.2 } ∧
      (∀ j q, (metrics_core sel wb).get? j = some q →
        sharpeVal q.1 q.2 ≤ sharpeVal m.1 m.2) ∧
      (∀ j q, (metrics_core sel wb).get? j = some q → j < i →
        sharpeVal q.1 q.2 < sharpeVal m.1 m.2) := by
  cases hsel : selectColumns returns_array column_indices with
  | none =>
    left
    simp [process_stock_combination, hsel]
  | some sel =>
    cases hwb : generate_valid_weights draws n_simulations with
    | none =>
      left
      simp [process_stock_combination, hsel, hwb]
    | some wb =>
      by_cases hne : metrics_core sel wb = []
      · left
        simp [process_stock_combination, hsel, hwb,
          find_best_portfolio_from_batch, hne, npArgmax]
      · right
        rcases npArgmax_spec sharpeLt (fun p => sharpeVal p.1 p.2)
          sharpeLt_iff (metrics_core sel wb) hne with
          ⟨i, m, harg, hget, hall, hstrict⟩
        have hilt : i < (metrics_core sel wb).length :=
          (List.get?_eq_some.mp hget).1
        have hWlt : i < wb.length := by
          have : (metrics_core sel wb).length = wb.length := by
            unfold metrics_core; exact List.length_map _ _
          omega
        have hWget : wb.get? i = some (wb.get ⟨i, hWlt⟩) :=
          List.get?_eq_some.mpr ⟨hWlt, rfl⟩
        refine ⟨sel, wb, i, wb.get ⟨i, hWlt⟩, m, rfl, rfl, hWget, hget, ?_,
          fun j q hq => hall j q hq,
          fun j q hq hj => hstrict j q hq hj⟩
        simp only [process_stock_combination, hsel, hwb,
          find_best_portfolio_from_batch, harg, hWget, hget]

/- ------------------------------------------------------------------ -/
/- Reduction: shared by both optimize paths                            -/
/- ------------------------------------------------------------------ -/

lemma recSharpeLt_iff (a b : PortfolioRecord) :
    recSharpeLt a b = true ↔ a.sharpe < b.sharpe := by
  exact sharpeLt_iff (a.annual_return, a.var_daily)
    (b.annual_return, b.var_daily)

lemma pyMaxBy_spec {α : Type} (lt : α → α → Bool) (f : α → ℝ)
    (hlt : ∀ x y, lt x y = true ↔ f x < f y) :
    ∀ (l : List α) (b : α),
      (pyMaxBy lt b l = b ∨ pyMaxBy lt b l ∈ l) ∧
      f b ≤ f (pyMaxBy lt b l) ∧
      ∀ x ∈ l, f x ≤ f (pyMaxBy lt b l) := by
  intro l
  induction l with
  | nil =>
    intro b
    refine ⟨Or.inl rfl, le_refl _, ?_⟩
    intro x hx
    simp at hx
  | cons x xs ih =>
    intro b
    rw [pyMaxBy]
    by_cases h : lt b x = true
    · rw [if_pos h]
      rcases ih x with ⟨hmem, hle, hall⟩
      refine ⟨?_, le_of_lt (lt_of_lt_of_le ((hlt b x).mp h) hle), ?_⟩
      · rcases hmem with hm | hm
        · exact Or.inr (by rw [hm]; exact List.mem_cons_self _ _)
        · exact Or.inr (List.mem_cons_of_mem _ hm)
      · intro y hy
        rcases List.mem_cons.mp hy with hy | hy
        · rw [hy]; exact hle
        · exact hall y hy
    · rw [if_neg h]
      rcases ih b with ⟨hmem, hle, hall⟩
      have hxb : f x ≤ f b := by
        rcases lt_or_le (f b) (f x) with h' | h'
        · exact absurd ((hlt b x).mpr h') h
        · exact h'
      refine ⟨?_, hle, ?_⟩
      · rcases hmem with hm | hm
        · exact Or.inl hm
        · exact Or.inr (List.mem_cons_of_mem _ hm)
      · intro y hy
        rcases List.mem_cons.mp hy with hy | hy
        · rw [hy]; exact le_trans hxb hle
        · exact hall y hy

/-- C4.  The reduction of the flattened per-combination records: an empty
list fails with NoValidPortfolioError, otherwise the returned record is one
of the collected records and its sharpe ratio is the maximum sharpe ratio
over all of them. -/
theorem reduceResults_spec (results : List PortfolioRecord) :
    (results = [] →
      reduceResults results = .error OptimizeError.NoValidPortfolioError) ∧
    (results ≠ [] → ∃ r, reduceResults results = .ok r ∧ r ∈ results ∧
      ∀ s ∈ results, s.sharpe ≤ r.sharpe) := by
  constructor
  · intro h
    rw [h]
    rfl
  · intro h
    cases results with
    | nil => exact absurd rfl h
    | cons b rs =>
      rcases pyMaxBy_spec recSharpeLt PortfolioRecord.sharpe
        recSharpeLt_iff rs b with ⟨hmem, hle, hall⟩
      refine ⟨pyMaxBy recSharpeLt b rs, rfl, ?_, ?_⟩
      · rcases hmem with hm | hm
        · rw [hm]; exact List.mem_cons_self _ _
        · exact List.mem_cons_of_mem _ hm
      · intro s hs
        rcases List.mem_cons.mp hs with hs | hs
        · rw [hs]; exact hle
        · exact hall s hs

/-- Witness for C4 at a concrete two-record result list. -/
theorem reduceResults_spec_witness :
    sampleRecords ≠ [] ∧
    ∃ r, reduceResults sampleRecords = .ok r ∧ r ∈ sampleRecords ∧
      ∀ s ∈ sampleRecords, s.sharpe ≤ r.sharpe :=
  ⟨by simp [sampleRecords], (reduceResults_spec sampleRecords).2
    (by simp [sampleRecords])⟩

/- ------------------------------------------------------------------ -/
/- Chunking: optimize_portfolio lines 80-94                            -/
/- ------------------------------------------------------------------ -/

lemma splitSizes_length (l n : ℕ) (hn : 1 ≤ n) :
    (splitSizes l n).length = n := by
  have := Nat.mod_lt l (show 0 < n from hn)
  simp [splitSizes]
  omega

lemma splitSizes_sum (l n : ℕ) (hn : 1 ≤ n) : (splitSizes l n).sum = l := by
  have hmod := Nat.mod_lt l (show 0 < n from hn)
  have hdm := Nat.div_add_mod l n
  simp only [splitSizes, List.sum_append, List.sum_replicate, smul_eq_mul]
  have h1 : l % n * (l / n + 1) = l % n * (l / n) + l % n := by ring
  have h2 : (n - l % n) * (l / n) = n * (l / n) - l % n * (l / n) :=
    Nat.sub_mul n (l % n) (l / n)
  have h3 : l % n * (l / n) ≤ n * (l / n) :=
    Nat.mul_le_mul_right _ (le_of_lt hmod)
  omega

lemma splitBySizes_length {α : Type} :
    ∀ (ss : List ℕ) (xs : List α), (splitBySizes ss xs).length = ss.length
  | [], _ => rfl
  | _ :: ss, xs => by
    rw [splitBySizes]
    simp [splitBySizes_length ss]

lemma splitBySizes_join {α : Type} :
    ∀ (ss : List ℕ) (xs : List α), xs.length ≤ ss.sum →
      (splitBySizes ss xs).flatten = xs
  | [], xs, h => by
    have : xs = [] := List.eq_nil_of_length_eq_zero (by simpa using h)
    simp [splitBySizes, this]
  | s :: ss, xs, h => by
    rw [splitBySizes, List.flatten_cons,
      splitBySizes_join ss (xs.drop s) (by rw [List.length_drop]; simp at h; omega),
      List.take_append_drop]

lemma one_le_numChunks (total chunkSize : ℕ) : 1 ≤ numChunks total chunkSize :=
  le_max_left _ _

lemma array_split_join {α : Type} (xs : List α) (n : ℕ) (hn : 1 ≤ n) :
    (array_split xs n).flatten = xs :=
  splitBySizes_join _ _ (le_of_eq (splitSizes_sum xs.length n hn).symm)

lemma splitBySizes_map_length {α : Type} :
    ∀ (ss : List ℕ) (xs : List α), ss.sum ≤ xs.length →
      (splitBySizes ss xs).map List.length = ss
  | [], _, _ => rfl
  | s :: ss, xs, h => by
    have hs : s ≤ xs.length := le_trans (by simp) h
    rw [splitBySizes, List.map_cons, List.length_take,
      splitBySizes_map_length ss (xs.drop s)
        (by rw [List.length_drop]; simp at h; omega),
      Nat.min_eq_left hs]

/-- C5.  Auto chunk sizing: the source computes exactly
min(250, max(1, total // (nWorkers * 4))) and max(1, total // chunkSize)
chunks, with the concrete instance 142506 combinations and 8 workers
giving chunk size 250 and 570 chunks; np.array_split cuts the list into
exactly that many near-equal consecutive pieces whose concatenation is
the whole list. -/
theorem chunking_spec :
    (∀ total nWorkers, autoChunkSize total nWorkers =
        min 250 (max 1 (total / (nWorkers * 4)))) ∧
    autoChunkSize 142506 8 = 250 ∧
    numChunks 142506 250 = 570 ∧
    ∀ (α : Type) (xs : List α) (n : ℕ), 1 ≤ n →
      (array_split xs n).length = n ∧
      (array_split xs n).flatten = xs ∧
      ∀ c ∈ array_split xs n,
        c.length = xs.length / n ∨ c.length = xs.length / n + 1 := by
  refine ⟨fun total nWorkers => min_comm _ _, by norm_num [autoChunkSize],
    by norm_num [numChunks], ?_⟩
  intro α xs n hn
  have hsum : (splitSizes xs.length n).sum = xs.length :=
    splitSizes_sum xs.length n hn
  refine ⟨?_, ?_, ?_⟩
  · rw [array_split, splitBySizes_length, splitSizes_length _ _ hn]
  · exact array_split_join xs n hn
  · intro c hc
    have hlen : c.length ∈ splitSizes xs.length n := by
      have hmap := splitBySizes_map_length (splitSizes xs.length n) xs
        (le_of_eq hsum)
      rw [← hmap]
      exact List.mem_map_of_mem List.length hc
    rcases List.mem_append.mp hlen with h | h
    · exact Or.inr (List.eq_of_mem_replicate h)
    · exact Or.inl (List.eq_of_mem_replicate h)

/-- Witness for C5 at a concrete five-element list split into two chunks. -/
theorem chunking_spec_witness :
    1 ≤ 2 ∧
      ((array_split [1, 2, 3, 4, 5] 2).length = 2 ∧
        (array_split [1, 2, 3, 4, 5] 2).flatten = [1, 2, 3, 4, 5] ∧
        ∀ c ∈ array_split [1, 2, 3, 4, 5] 2,
          c.length = ([1, 2, 3, 4, 5] : List ℕ).length / 2 ∨
            c.length = ([1, 2, 3, 4, 5] : List ℕ).length / 2 + 1) :=
  ⟨by decide, chunking_spec.2.2.2 ℕ [1, 2, 3, 4, 5] 2 (by decide)⟩

/- ------------------------------------------------------------------ -/
/- The two optimization paths, portfolio_optimizer.py 57-159           -/
/- ------------------------------------------------------------------ -/

/-- C9.  Driven by the same input and the same per-combination random
draws (in the embedding a random seed is exactly the draw sequence it
determines), the parallel path and the sequential path return identical
results — in particular identical best-sharpe values: chunking, chunk-wise
evaluation and flattening preserve the per-combination record list. -/
theorem optimize_portfolio_parity (prices : PriceFrame)
    (n_select nSim nWorkers : ℕ) (chunk_size : Option ℕ)
    (draws : List (List (List (List ℚ)))) :
    optimize_portfolio prices n_select nSim nWorkers chunk_size draws =
      optimize_portfolio_sequential prices n_select nSim draws := by
  simp only [optimize_portfolio, optimize_portfolio_sequential]
  have hchunk : process_combinations_chunk (pct_change_dropna prices.rows)
      prices.cols nSim =
        List.filterMap (runJob (pct_change_dropna prices.rows)
          prices.cols nSim) := rfl
  rw [hchunk, ← List.filterMap_flatten,
    array_split_join _ _ (one_le_numChunks _ _)]

end PortfolioOpt
